import Mathlib

/-!
Verification of the arena-backed set types in
`hphp/hack/src/arena_collections/multiset.rs`: the mutable builder
`MultiSetMut`, the order-preserving frozen view `MultiSet`, and the
sorted deduplicated view `SortedSet`.

The three Rust types are thin wrappers around association-list
primitives (`AssocListMut`, `AssocList`, `SortedAssocList`) that live in
a sibling module.  Every element is paired with a `()` marker carrying
no information, so a collection state is embedded as the `List α` of its
elements in storage order.  Arena allocation only decides where bytes
live; it is irrelevant to the functional behaviour modelled here.

Comparisons are embedded as an explicit `cmp : α → α → Ordering`
standing for Rust's `Ord`; lawfulness of the comparison (the spec's
"the ordering on the borrowed form must match the ordering on the value
type") is the `LawfulCmp` predicate.
-/

namespace ArenaMultiset

universe u
variable {α : Type u}

/-- Lawfulness of a comparison function: antisymmetric (`swap`-coherent)
and transitive in the `≤` (not-`gt`) sense.  This is what Rust's `Ord`
contract guarantees for a correct implementation, and what the spec's
"comparison must be consistent with the order used at construction"
preconditions require. -/
structure LawfulCmp (cmp : α → α → Ordering) : Prop where
  symm : ∀ a b, cmp b a = (cmp a b).swap
  le_trans : ∀ a b c, cmp a b ≠ Ordering.gt → cmp b c ≠ Ordering.gt →
    cmp a c ≠ Ordering.gt

namespace AssocListMut

/-- Modelled from the spec: `AssocListMut::insert` ("an ordered mutable
key/marker list supporting push"); insertion appends the new entry at
the end, so iteration yields insertion order.  The `()` marker payload
is omitted because it carries no information. -/
def insert (l : List α) (x : α) : List α := l ++ [x]

/-- Modelled from the spec: `AssocListMut::contains_key` ("linear-scan
lookup"); true iff some stored element compares equal to the query. -/
def contains_key (cmp : α → α → Ordering) (l : List α) (q : α) : Bool :=
  l.any fun x => cmp x q == Ordering.eq

/-- Remove the first element satisfying `p`; leave the list unchanged
when no element satisfies it. -/
def removeFirstMatch (p : α → Bool) : List α → List α
  | [] => []
  | x :: xs => if p x then xs else x :: removeFirstMatch p xs

/-- Modelled from the spec: `AssocListMut::remove`
("remove-first-match-in-reverse-order"): removes the most recently
inserted entry whose key compares equal to the query, preserving the
order of the rest, and reports whether a match was found.  The Rust
method returns the removed value as an `Option`; the multiset layer only
uses `is_some()`, embedded here as the `Bool` component. -/
def remove (cmp : α → α → Ordering) (l : List α) (q : α) : List α × Bool :=
  if contains_key cmp l q then
    (((removeFirstMatch (fun x => cmp x q == Ordering.eq) l.reverse)).reverse, true)
  else (l, false)

/-- Modelled from the spec: `AssocListMut::remove_all`
("remove-all-matches"): removes every entry whose key compares equal to
the query and reports whether any removal occurred. -/
def remove_all (cmp : α → α → Ordering) (l : List α) (q : α) : List α × Bool :=
  (l.filter fun x => !(cmp x q == Ordering.eq), contains_key cmp l q)

/-- Modelled from the spec: `AssocListMut::keys` ("ordered iteration"):
the keys in storage (= insertion) order. -/
def keys (l : List α) : List α := l

/-- Modelled from the spec: number of stored entries. -/
def len (l : List α) : Nat := l.length

/-- Modelled from the spec: emptiness test. -/
def is_empty (l : List α) : Bool := l.isEmpty

end AssocListMut

namespace AssocList

/-- Modelled from the spec: the immutable `AssocList` has "the identical
read surface" to the mutable list; `contains_key` is the same
linear scan. -/
def contains_key (cmp : α → α → Ordering) (l : List α) (q : α) : Bool :=
  AssocListMut.contains_key cmp l q

/-- Modelled from the spec: ordered iteration over keys. -/
def keys (l : List α) : List α := l

/-- Modelled from the spec: number of stored entries. -/
def len (l : List α) : Nat := l.length

/-- Modelled from the spec: emptiness test. -/
def is_empty (l : List α) : Bool := l.isEmpty

/-- Modelled from the spec: `impl From<AssocListMut> for AssocList`
reuses the same backing storage: "performs no reordering, no
filtering". -/
def ofAssocListMut (l : List α) : List α := l

end AssocList

namespace SortedAssocList

/-- Insert `a` into a sorted list just before the first element it does
not strictly exceed.  Used by the stable sort below; an element keeps
moving right only past strictly smaller elements, so among
order-equal elements input order is preserved. -/
def orderedInsertCmp (cmp : α → α → Ordering) (a : α) : List α → List α
  | [] => [a]
  | b :: l =>
    if cmp a b = Ordering.gt then b :: orderedInsertCmp cmp a l
    else a :: b :: l

/-- Stable sort by `cmp` (insertion sort). -/
def sortByCmp (cmp : α → α → Ordering) : List α → List α
  | [] => []
  | a :: l => orderedInsertCmp cmp a (sortByCmp cmp l)

/-- Tail of the adjacent dedup: `a` is the most recently retained
element; drop elements comparing equal to it, keep the first one that
does not and continue with it as the new representative. -/
def dedupAdjGo (cmp : α → α → Ordering) (a : α) : List α → List α
  | [] => []
  | b :: l =>
    if cmp a b = Ordering.eq then dedupAdjGo cmp a l
    else b :: dedupAdjGo cmp b l

/-- Collapse runs of order-equal adjacent elements to their first
element. -/
def dedupAdj (cmp : α → α → Ordering) : List α → List α
  | [] => []
  | a :: l => a :: dedupAdjGo cmp a l

/-- Modelled from the spec: the "bulk sort+dedup constructor from the
mutable list" (`impl From<AssocListMut> for SortedAssocList`): "sort the
backing sequence by ascending element order, then collapse runs of equal
elements to a single representative", using "a stable sort before
collapsing so that, among equal elements, the earliest-inserted
occurrence is the one retained". -/
def ofAssocListMut (cmp : α → α → Ordering) (l : List α) : List α :=
  dedupAdj cmp (sortByCmp cmp l)

/-- One fuelled step of binary search: probe the middle element and
recurse into the half that can still hold a match.  The fuel only bounds
the recursion depth; `binSearch` supplies enough fuel that it never runs
out, since each step strictly shrinks the list. -/
def binSearchGo (cmp : α → α → Ordering) : Nat → List α → α → Bool
  | 0, _, _ => false
  | fuel + 1, xs, q =>
    if h : xs.length = 0 then false
    else
      match cmp (xs.get ⟨xs.length / 2,
          Nat.div_lt_self (Nat.pos_of_ne_zero h) Nat.one_lt_two⟩) q with
      | Ordering.eq => true
      | Ordering.lt => binSearchGo cmp fuel (xs.drop (xs.length / 2 + 1)) q
      | Ordering.gt => binSearchGo cmp fuel (xs.take (xs.length / 2)) q

/-- Binary search for an element comparing equal to `q` in a sorted
list. -/
def binSearch (cmp : α → α → Ordering) (xs : List α) (q : α) : Bool :=
  binSearchGo cmp xs.length xs q

/-- Modelled from the spec: `SortedAssocList::contains_key` ("binary
search over the sorted sequence"). -/
def contains_key (cmp : α → α → Ordering) (l : List α) (q : α) : Bool :=
  binSearch cmp l q

/-- Modelled from the spec: ordered iteration over keys. -/
def keys (l : List α) : List α := l

/-- Modelled from the spec: number of stored entries. -/
def len (l : List α) : Nat := l.length

/-- Modelled from the spec: emptiness test. -/
def is_empty (l : List α) : Bool := l.isEmpty

end SortedAssocList

/-! The multiset layer, translated from
`hphp/hack/src/arena_collections/multiset.rs`.  Each state is the
element list held by the wrapped association list. -/

namespace MultiSetMut

/-- Rust `MultiSetMut::new_in`: empty builder. -/
def new : List α := []

/-- Rust `MultiSetMut::contains`: delegates to `AssocListMut::contains_key`. -/
def contains (cmp : α → α → Ordering) (s : List α) (q : α) : Bool :=
  AssocListMut.contains_key cmp s q

/-- Rust `MultiSetMut::insert`: delegates to `AssocListMut::insert` with a
`()` marker; always appends, never deduplicates. -/
def insert (s : List α) (v : α) : List α :=
  AssocListMut.insert s v

/-- Rust `MultiSetMut::remove`: delegates to `AssocListMut::remove` and
returns `is_some()` of the result. -/
def remove (cmp : α → α → Ordering) (s : List α) (q : α) : List α × Bool :=
  AssocListMut.remove cmp s q

/-- Rust `MultiSetMut::remove_all`: delegates to
`AssocListMut::remove_all`. -/
def remove_all (cmp : α → α → Ordering) (s : List α) (q : α) : List α × Bool :=
  AssocListMut.remove_all cmp s q

/-- Rust `MultiSetMut::iter`: delegates to `AssocListMut::keys`. -/
def iter (s : List α) : List α := AssocListMut.keys s

/-- Rust `MultiSetMut::len`: delegates to `AssocListMut::len`. -/
def len (s : List α) : Nat := AssocListMut.len s

/-- Rust `MultiSetMut::is_empty`: delegates to `AssocListMut::is_empty`. -/
def is_empty (s : List α) : Bool := AssocListMut.is_empty s

end MultiSetMut

/-- A builder obtained from `new_in` by a sequence of `insert` calls. -/
def buildMultiSetMut (vs : List α) : List α :=
  vs.foldl MultiSetMut.insert MultiSetMut.new

namespace MultiSet

/-- Rust `impl From<MultiSetMut> for MultiSet`: `set.list.into()`, the
storage-reusing freeze conversion. -/
def ofMultiSetMut (s : List α) : List α := AssocList.ofAssocListMut s

/-- Rust `MultiSet::contains`: delegates to `AssocList::contains_key`. -/
def contains (cmp : α → α → Ordering) (s : List α) (q : α) : Bool :=
  AssocList.contains_key cmp s q

/-- Rust `MultiSet::iter`: delegates to `AssocList::keys`. -/
def iter (s : List α) : List α := AssocList.keys s

/-- Rust `MultiSet::len`: delegates to `AssocList::len`. -/
def len (s : List α) : Nat := AssocList.len s

/-- Rust `MultiSet::is_empty`: delegates to `AssocList::is_empty`. -/
def is_empty (s : List α) : Bool := AssocList.is_empty s

end MultiSet

namespace SortedSet

/-- Rust `impl From<MultiSetMut> for SortedSet`: `set.list.into()`, the
sort+dedup conversion of the wrapped list. -/
def ofMultiSetMut (cmp : α → α → Ordering) (s : List α) : List α :=
  SortedAssocList.ofAssocListMut cmp s

/-- Rust `SortedSet::contains`: delegates to
`SortedAssocList::contains_key`. -/
def contains (cmp : α → α → Ordering) (s : List α) (q : α) : Bool :=
  SortedAssocList.contains_key cmp s q

/-- Rust `SortedSet::iter`: delegates to `SortedAssocList::keys`. -/
def iter (s : List α) : List α := SortedAssocList.keys s

/-- Rust `SortedSet::len`: delegates to `SortedAssocList::len`. -/
def len (s : List α) : Nat := SortedAssocList.len s

/-- Rust `SortedSet::is_empty`: delegates to `SortedAssocList::is_empty`. -/
def is_empty (s : List α) : Bool := SortedAssocList.is_empty s

end SortedSet

/-! Derived facts about lawful comparisons. -/

namespace LawfulCmp

variable {cmp : α → α → Ordering}

theorem cmp_refl (hc : LawfulCmp cmp) (a : α) : cmp a a = Ordering.eq := by
  have h := hc.symm a a
  cases he : cmp a a
  · rw [he] at h; exact absurd h (by decide)
  · rfl
  · rw [he] at h; exact absurd h (by decide)

theorem eq_symm (hc : LawfulCmp cmp) {a b : α} (h : cmp a b = Ordering.eq) :
    cmp b a = Ordering.eq := by
  rw [hc.symm a b, h]; rfl

theorem gt_iff_lt (hc : LawfulCmp cmp) {a b : α} :
    cmp a b = Ordering.gt ↔ cmp b a = Ordering.lt := by
  have h := hc.symm b a
  cases hba : cmp b a <;> rw [hba] at h <;> rw [h] <;> decide

theorem lt_trans (hc : LawfulCmp cmp) {a b c : α} (hab : cmp a b = Ordering.lt)
    (hbc : cmp b c = Ordering.lt) : cmp a c = Ordering.lt := by
  have hle : cmp a c ≠ Ordering.gt :=
    hc.le_trans a b c (by simp [hab]) (by simp [hbc])
  cases hac : cmp a c with
  | lt => rfl
  | eq =>
    exfalso
    have hca : cmp c a = Ordering.eq := hc.eq_symm hac
    have hcb : cmp c b ≠ Ordering.gt :=
      hc.le_trans c a b (by simp [hca]) (by simp [hab])
    exact hcb (hc.gt_iff_lt.2 hbc)
  | gt => exact absurd hac hle

theorem lt_of_le_of_lt (hc : LawfulCmp cmp) {a b c : α}
    (hab : cmp a b ≠ Ordering.gt) (hbc : cmp b c = Ordering.lt) :
    cmp a c = Ordering.lt := by
  have hle : cmp a c ≠ Ordering.gt := hc.le_trans a b c hab (by simp [hbc])
  cases hac : cmp a c with
  | lt => rfl
  | eq =>
    exfalso
    have hca : cmp c a = Ordering.eq := hc.eq_symm hac
    have hcb : cmp c b ≠ Ordering.gt :=
      hc.le_trans c a b (by simp [hca]) hab
    exact hcb (hc.gt_iff_lt.2 hbc)
  | gt => exact absurd hac hle

theorem lt_of_lt_of_le (hc : LawfulCmp cmp) {a b c : α}
    (hab : cmp a b = Ordering.lt) (hbc : cmp b c ≠ Ordering.gt) :
    cmp a c = Ordering.lt := by
  have hle : cmp a c ≠ Ordering.gt := hc.le_trans a b c (by simp [hab]) hbc
  cases hac : cmp a c with
  | lt => rfl
  | eq =>
    exfalso
    have hca : cmp c a = Ordering.eq := hc.eq_symm hac
    have hba : cmp b a ≠ Ordering.gt :=
      hc.le_trans b c a hbc (by simp [hca])
    exact hba (hc.gt_iff_lt.2 hab)
  | gt => exact absurd hac hle

theorem lt_of_le_ne (_hc : LawfulCmp cmp) {a b : α}
    (hab : cmp a b ≠ Ordering.gt) (hne : cmp a b ≠ Ordering.eq) :
    cmp a b = Ordering.lt := by
  cases h : cmp a b with
  | lt => rfl
  | eq => exact absurd h hne
  | gt => exact absurd h hab

theorem eq_congr_left (hc : LawfulCmp cmp) {a b : α}
    (hab : cmp a b = Ordering.eq) (c : α) : cmp a c = cmp b c := by
  cases hbc : cmp b c with
  | lt => exact hc.lt_of_le_of_lt (by simp [hab]) hbc
  | eq =>
    have h1 : cmp a c ≠ Ordering.gt :=
      hc.le_trans a b c (by simp [hab]) (by simp [hbc])
    have h2 : cmp c a ≠ Ordering.gt :=
      hc.le_trans c b a (by simp [hc.eq_symm hbc]) (by simp [hc.eq_symm hab])
    cases hac : cmp a c with
    | lt => exact absurd (hc.gt_iff_lt.2 hac) h2
    | eq => rfl
    | gt => exact absurd hac h1
  | gt =>
    have hcb : cmp c b = Ordering.lt := hc.gt_iff_lt.1 hbc
    have hca : cmp c a = Ordering.lt :=
      hc.lt_of_lt_of_le hcb (by simp [hc.eq_symm hab])
    exact hc.gt_iff_lt.2 hca

theorem eq_congr_right (hc : LawfulCmp cmp) {a b : α}
    (hab : cmp a b = Ordering.eq) (c : α) : cmp c a = cmp c b := by
  rw [hc.symm a c, hc.symm b c, hc.eq_congr_left hab c]

theorem eq_trans (hc : LawfulCmp cmp) {a b c : α} (hab : cmp a b = Ordering.eq)
    (hbc : cmp b c = Ordering.eq) : cmp a c = Ordering.eq := by
  rw [hc.eq_congr_left hab c]; exact hbc

end LawfulCmp

/-- On `Ordering`, boolean equality agrees with propositional equality. -/
@[simp] theorem ordering_beq_true {o p : Ordering} : (o == p) = true ↔ o = p := by
  cases o <;> cases p <;> decide

/-- On `Ordering`, boolean equality agrees with propositional equality. -/
@[simp] theorem ordering_beq_false {o p : Ordering} : (o == p) = false ↔ o ≠ p := by
  cases o <;> cases p <;> decide

/-! Properties of the stable sort used by the `SortedSet` conversion. -/

namespace SortedAssocList

variable {cmp : α → α → Ordering}

theorem mem_orderedInsertCmp {a x : α} : ∀ {l : List α},
    x ∈ orderedInsertCmp cmp a l ↔ x = a ∨ x ∈ l := by
  intro l
  induction l with
  | nil => simp [orderedInsertCmp]
  | cons b t ih =>
    rw [orderedInsertCmp]
    split
    · rw [List.mem_cons, ih, List.mem_cons]
      tauto
    · rw [List.mem_cons, List.mem_cons]

theorem perm_orderedInsertCmp (a : α) : ∀ (l : List α),
    List.Perm (orderedInsertCmp cmp a l) (a :: l) := by
  intro l
  induction l with
  | nil => simp [orderedInsertCmp]
  | cons b t ih =>
    rw [orderedInsertCmp]
    split
    · exact (ih.cons b).trans (List.Perm.swap a b t)
    · exact List.Perm.refl _

theorem perm_sortByCmp : ∀ (l : List α), List.Perm (sortByCmp cmp l) l := by
  intro l
  induction l with
  | nil => exact List.Perm.refl _
  | cons a t ih =>
    rw [sortByCmp]
    exact (perm_orderedInsertCmp a (sortByCmp cmp t)).trans (ih.cons a)

theorem pairwise_orderedInsertCmp (hc : LawfulCmp cmp) (a : α) :
    ∀ {l : List α}, l.Pairwise (fun x y => cmp x y ≠ Ordering.gt) →
      (orderedInsertCmp cmp a l).Pairwise (fun x y => cmp x y ≠ Ordering.gt) := by
  intro l
  induction l with
  | nil => intro _; simp [orderedInsertCmp]
  | cons b t ih =>
    intro h
    rw [List.pairwise_cons] at h
    obtain ⟨hb, ht⟩ := h
    rw [orderedInsertCmp]
    split
    · rename_i hab
      rw [List.pairwise_cons]
      refine ⟨fun y hy => ?_, ih ht⟩
      rcases mem_orderedInsertCmp.1 hy with hya | hyt
      · subst hya
        rw [hc.gt_iff_lt.1 hab]
        simp
      · exact hb y hyt
    · rename_i hab
      rw [List.pairwise_cons]
      refine ⟨fun y hy => ?_, List.pairwise_cons.2 ⟨hb, ht⟩⟩
      rcases List.mem_cons.1 hy with hyb | hyt
      · subst hyb; exact hab
      · exact hc.le_trans a b y hab (hb y hyt)

theorem pairwise_sortByCmp (hc : LawfulCmp cmp) : ∀ (l : List α),
    (sortByCmp cmp l).Pairwise (fun x y => cmp x y ≠ Ordering.gt) := by
  intro l
  induction l with
  | nil => simp [sortByCmp]
  | cons a t ih =>
    rw [sortByCmp]
    exact pairwise_orderedInsertCmp hc a ih

theorem filter_orderedInsertCmp (hc : LawfulCmp cmp) (a q : α) :
    ∀ (l : List α),
    (orderedInsertCmp cmp a l).filter (fun y => cmp y q == Ordering.eq) =
      if cmp a q = Ordering.eq
      then a :: l.filter (fun y => cmp y q == Ordering.eq)
      else l.filter (fun y => cmp y q == Ordering.eq) := by
  intro l
  induction l with
  | nil =>
    by_cases haq : cmp a q = Ordering.eq <;>
      simp [orderedInsertCmp, List.filter_cons, haq]
  | cons b t ih =>
    rw [orderedInsertCmp]
    split
    · rename_i hab
      by_cases haq : cmp a q = Ordering.eq
      · have hbq : cmp b q = Ordering.lt :=
          hc.lt_of_lt_of_le (hc.gt_iff_lt.1 hab) (by simp [haq])
        simp [List.filter_cons, hbq, ih, haq]
      · simp only [List.filter_cons, ih, if_neg haq]
    · rename_i hab
      by_cases haq : cmp a q = Ordering.eq <;>
        simp [List.filter_cons, haq]

theorem filter_sortByCmp (hc : LawfulCmp cmp) (q : α) : ∀ (l : List α),
    (sortByCmp cmp l).filter (fun y => cmp y q == Ordering.eq) =
      l.filter (fun y => cmp y q == Ordering.eq) := by
  intro l
  induction l with
  | nil => rfl
  | cons a t ih =>
    rw [sortByCmp, filter_orderedInsertCmp hc a q, ih]
    by_cases haq : cmp a q = Ordering.eq <;> simp [List.filter_cons, haq]

theorem mem_dedupAdjGo : ∀ (a : α) (l : List α), ∀ x ∈ dedupAdjGo cmp a l,
    x ∈ l := by
  intro a l
  induction l generalizing a with
  | nil => simp [dedupAdjGo]
  | cons b t ih =>
    intro x hx
    rw [dedupAdjGo] at hx
    split at hx
    · exact List.mem_cons_of_mem b (ih a x hx)
    · rcases List.mem_cons.1 hx with h | h
      · exact h ▸ List.mem_cons_self b t
      · exact List.mem_cons_of_mem b (ih b x h)

theorem mem_dedupAdj {x : α} {l : List α} (h : x ∈ dedupAdj cmp l) :
    x ∈ l := by
  cases l with
  | nil => simp [dedupAdj] at h
  | cons a t =>
    rw [dedupAdj] at h
    rcases List.mem_cons.1 h with h2 | h2
    · exact h2 ▸ List.mem_cons_self a t
    · exact List.mem_cons_of_mem a (mem_dedupAdjGo a t x h2)

theorem chainLt_dedupAdjGo (hc : LawfulCmp cmp) :
    ∀ (a : α) (l : List α),
      (a :: l).Pairwise (fun x y => cmp x y ≠ Ordering.gt) →
      List.Chain' (fun x y => cmp x y = Ordering.lt) (a :: dedupAdjGo cmp a l) := by
  intro a l
  induction l generalizing a with
  | nil => intro _; simp [dedupAdjGo]
  | cons b t ih =>
    intro h
    rw [List.pairwise_cons] at h
    obtain ⟨ha, hbt⟩ := h
    rw [dedupAdjGo]
    split
    · apply ih a
      rw [List.pairwise_cons]
      exact ⟨fun y hy => ha y (List.mem_cons_of_mem b hy),
        (List.pairwise_cons.1 hbt).2⟩
    · rename_i hne
      rw [List.chain'_cons]
      exact ⟨hc.lt_of_le_ne (ha b (List.mem_cons_self b t)) hne, ih b hbt⟩

theorem chainLt_dedupAdj (hc : LawfulCmp cmp) {l : List α}
    (h : l.Pairwise (fun x y => cmp x y ≠ Ordering.gt)) :
    List.Chain' (fun x y => cmp x y = Ordering.lt) (dedupAdj cmp l) := by
  cases l with
  | nil => simp [dedupAdj]
  | cons a t => exact chainLt_dedupAdjGo hc a t h

theorem exists_rep_dedupAdjGo (hc : LawfulCmp cmp) :
    ∀ (a : α) (l : List α) (y : α), y ∈ a :: l →
      ∃ x ∈ a :: dedupAdjGo cmp a l, cmp x y = Ordering.eq := by
  intro a l
  induction l generalizing a with
  | nil =>
    intro y hy
    rw [List.mem_singleton] at hy
    exact ⟨a, List.mem_singleton_self a, by rw [hy]; exact hc.cmp_refl a⟩
  | cons b t ih =>
    intro y hy
    rw [dedupAdjGo]
    split
    · rename_i heq
      rcases List.mem_cons.1 hy with h | h
      · exact ⟨a, List.mem_cons_self _ _, by rw [h]; exact hc.cmp_refl a⟩
      · rcases List.mem_cons.1 h with h2 | h2
        · exact ⟨a, List.mem_cons_self _ _, by rw [h2]; exact heq⟩
        · exact ih a y (List.mem_cons_of_mem a h2)
    · rcases List.mem_cons.1 hy with h | h
      · exact ⟨a, List.mem_cons_self _ _, by rw [h]; exact hc.cmp_refl a⟩
      · obtain ⟨x, hx, hxy⟩ := ih b y h
        exact ⟨x, List.mem_cons_of_mem a hx, hxy⟩

theorem exists_rep_dedupAdj (hc : LawfulCmp cmp) {l : List α} {y : α}
    (hy : y ∈ l) : ∃ x ∈ dedupAdj cmp l, cmp x y = Ordering.eq := by
  cases l with
  | nil => simp at hy
  | cons a t => exact exists_rep_dedupAdjGo hc a t y hy

theorem binSearchGo_iff (hc : LawfulCmp cmp) :
    ∀ (fuel : Nat) (xs : List α), xs.length ≤ fuel →
      xs.Pairwise (fun x y => cmp x y = Ordering.lt) → ∀ (q : α),
      (binSearchGo cmp fuel xs q = true ↔ ∃ x ∈ xs, cmp x q = Ordering.eq) := by
  intro fuel
  induction fuel with
  | zero =>
    intro xs hlen _ q
    have hnil : xs = [] := List.eq_nil_of_length_eq_zero (Nat.le_zero.1 hlen)
    subst hnil
    simp [binSearchGo]
  | succ fuel ih =>
    intro xs hlen hpw q
    by_cases h0 : xs.length = 0
    · have hnil : xs = [] := List.eq_nil_of_length_eq_zero h0
      subst hnil
      simp [binSearchGo]
    · have hmlt : xs.length / 2 < xs.length :=
        Nat.div_lt_self (Nat.pos_of_ne_zero h0) Nat.one_lt_two
      have hdrop : xs.drop (xs.length / 2) =
          xs.get ⟨xs.length / 2, hmlt⟩ :: xs.drop (xs.length / 2 + 1) := by
        rw [List.drop_eq_getElem_cons hmlt]; rfl
      have hdecomp : xs = xs.take (xs.length / 2) ++
          xs.get ⟨xs.length / 2, hmlt⟩ :: xs.drop (xs.length / 2 + 1) := by
        rw [← hdrop, List.take_append_drop]
      have hpwd := hpw
      rw [hdecomp, List.pairwise_append, List.pairwise_cons] at hpwd
      obtain ⟨hpw₁, ⟨hxd, hpw₂⟩, hcross⟩ := hpwd
      rw [binSearchGo, dif_neg h0]
      split
      · rename_i heq
        have hx : cmp (xs.get ⟨xs.length / 2, hmlt⟩) q = Ordering.eq := heq
        constructor
        · intro _
          exact ⟨xs.get ⟨xs.length / 2, hmlt⟩, List.get_mem xs _ hmlt, hx⟩
        · intro _; rfl
      · rename_i hlt
        have hx : cmp (xs.get ⟨xs.length / 2, hmlt⟩) q = Ordering.lt := hlt
        have hdlen : (xs.drop (xs.length / 2 + 1)).length ≤ fuel := by
          rw [List.length_drop]; omega
        have hdpw : (xs.drop (xs.length / 2 + 1)).Pairwise
            (fun x y => cmp x y = Ordering.lt) :=
          List.Pairwise.sublist (List.drop_sublist _ _) hpw
        rw [ih (xs.drop (xs.length / 2 + 1)) hdlen hdpw q]
        constructor
        · intro hmem
          obtain ⟨y, hy, hyq⟩ := hmem
          exact ⟨y, List.mem_of_mem_drop hy, hyq⟩
        · intro hmem
          obtain ⟨y, hy, hyq⟩ := hmem
          rw [hdecomp] at hy
          rcases List.mem_append.1 hy with hyt | hyxd
          · exfalso
            have hyx : cmp y (xs.get ⟨xs.length / 2, hmlt⟩) = Ordering.lt :=
              hcross y hyt _ (List.mem_cons_self _ _)
            have : cmp y q = Ordering.lt := hc.lt_trans hyx hx
            rw [hyq] at this
            exact absurd this (by decide)
          · rcases List.mem_cons.1 hyxd with hyx | hyd
            · exfalso
              rw [hyx, hx] at hyq
              exact absurd hyq (by decide)
            · exact ⟨y, hyd, hyq⟩
      · rename_i hgt
        have hx : cmp (xs.get ⟨xs.length / 2, hmlt⟩) q = Ordering.gt := hgt
        have htlen : (xs.take (xs.length / 2)).length ≤ fuel := by
          rw [List.length_take]; omega
        have htpw : (xs.take (xs.length / 2)).Pairwise
            (fun x y => cmp x y = Ordering.lt) :=
          List.Pairwise.sublist (List.take_sublist _ _) hpw
        rw [ih (xs.take (xs.length / 2)) htlen htpw q]
        constructor
        · intro hmem
          obtain ⟨y, hy, hyq⟩ := hmem
          exact ⟨y, List.mem_of_mem_take hy, hyq⟩
        · intro hmem
          obtain ⟨y, hy, hyq⟩ := hmem
          rw [hdecomp] at hy
          rcases List.mem_append.1 hy with hyt | hyxd
          · exact ⟨y, hyt, hyq⟩
          · exfalso
            rcases List.mem_cons.1 hyxd with hyx | hyd
            · rw [hyx, hx] at hyq
              exact absurd hyq (by decide)
            · have hxy : cmp (xs.get ⟨xs.length / 2, hmlt⟩) y = Ordering.lt :=
                hxd y hyd
              have hcongr : cmp (xs.get ⟨xs.length / 2, hmlt⟩) y =
                  cmp (xs.get ⟨xs.length / 2, hmlt⟩) q :=
                hc.eq_congr_right hyq _
              rw [hcongr, hx] at hxy
              exact absurd hxy (by decide)

theorem binSearch_iff (hc : LawfulCmp cmp) (xs : List α)
    (hpw : xs.Pairwise (fun x y => cmp x y = Ordering.lt)) (q : α) :
    binSearch cmp xs q = true ↔ ∃ x ∈ xs, cmp x q = Ordering.eq :=
  binSearchGo_iff hc xs.length xs (Nat.le_refl _) hpw q

/-- The sort+dedup conversion yields a strictly ascending sequence. -/
theorem pairwiseLt_ofAssocListMut (hc : LawfulCmp cmp) (l : List α) :
    (ofAssocListMut cmp l).Pairwise (fun x y => cmp x y = Ordering.lt) := by
  have hch := chainLt_dedupAdj hc (pairwise_sortByCmp hc l)
  haveI : IsTrans α (fun x y => cmp x y = Ordering.lt) :=
    ⟨fun a b c hab hbc => hc.lt_trans hab hbc⟩
  exact List.chain'_iff_pairwise.1 hch

/-- The first retained representative of each run, read off through a
filter: every element of the dedup output heads the filtered run of its
equivalence class. -/
theorem head_filter_dedupAdjGo (hc : LawfulCmp cmp) :
    ∀ (a : α) (l : List α),
      (a :: l).Pairwise (fun x y => cmp x y ≠ Ordering.gt) →
      ∀ x ∈ a :: dedupAdjGo cmp a l,
        ((a :: l).filter (fun y => cmp y x == Ordering.eq)).head? = some x := by
  intro a l
  induction l generalizing a with
  | nil =>
    intro _ x hx
    rw [dedupAdjGo, List.mem_singleton] at hx
    simp [List.filter_cons, hx, hc.cmp_refl a]
  | cons b t ih =>
    intro hpw x hx
    rw [List.pairwise_cons] at hpw
    obtain ⟨ha, hbt⟩ := hpw
    rw [dedupAdjGo] at hx
    split at hx
    · rename_i heq
      have hpw2 : (a :: t).Pairwise (fun x y => cmp x y ≠ Ordering.gt) :=
        List.pairwise_cons.2 ⟨fun y hy => ha y (List.mem_cons_of_mem b hy),
          (List.pairwise_cons.1 hbt).2⟩
      have IH := ih a hpw2 x hx
      by_cases hpa : cmp a x = Ordering.eq
      · simp only [List.filter_cons, ordering_beq_true] at IH ⊢
        rw [if_pos hpa] at IH ⊢
        rw [List.head?_cons] at IH ⊢
        exact IH
      · have hba : cmp b x = cmp a x := hc.eq_congr_left (hc.eq_symm heq) x
        have hpb : ¬ cmp b x = Ordering.eq := by rw [hba]; exact hpa
        simp only [List.filter_cons, ordering_beq_true] at IH ⊢
        rw [if_neg hpa] at IH
        rw [if_neg hpa, if_neg hpb]
        exact IH
    · rename_i hne
      rcases List.mem_cons.1 hx with hxa | hx2
      · simp [List.filter_cons, hxa, hc.cmp_refl a]
      · have IH := ih b hbt x hx2
        have hab : cmp a b = Ordering.lt :=
          hc.lt_of_le_ne (ha b (List.mem_cons_self b t)) hne
        have hxbt : x ∈ b :: t := by
          rcases List.mem_cons.1 hx2 with h | h
          · rw [h]; exact List.mem_cons_self b t
          · exact List.mem_cons_of_mem b (mem_dedupAdjGo b t x h)
        have hbx : cmp b x ≠ Ordering.gt := by
          rcases List.mem_cons.1 hxbt with h | h
          · rw [h]; simp [hc.cmp_refl b]
          · exact (List.pairwise_cons.1 hbt).1 x h
        have hax : cmp a x = Ordering.lt := hc.lt_of_lt_of_le hab hbx
        have hpa : ¬ cmp a x = Ordering.eq := by rw [hax]; decide
        simp only [List.filter_cons, ordering_beq_true] at IH ⊢
        rw [if_neg hpa]
        exact IH

theorem head_filter_dedupAdj (hc : LawfulCmp cmp) {l : List α}
    (hpw : l.Pairwise (fun x y => cmp x y ≠ Ordering.gt)) :
    ∀ x ∈ dedupAdj cmp l,
      (l.filter (fun y => cmp y x == Ordering.eq)).head? = some x := by
  cases l with
  | nil => intro x hx; simp [dedupAdj] at hx
  | cons a t => intro x hx; exact head_filter_dedupAdjGo hc a t hpw x hx

/-- A list whose filtering by `p` starts with `x` splits at the first
occurrence of `x`, with nothing satisfying `p` before it. -/
theorem head_filter_split (p : α → Bool) :
    ∀ (l : List α) (x : α), (l.filter p).head? = some x →
      ∃ l₁ l₂, l = l₁ ++ x :: l₂ ∧ ∀ y ∈ l₁, p y = false := by
  intro l
  induction l with
  | nil => intro x h; simp at h
  | cons a t ih =>
    intro x h
    by_cases hpa : p a = true
    · rw [List.filter_cons, if_pos hpa, List.head?_cons, Option.some_inj] at h
      exact ⟨[], t, by rw [h]; rfl, by intro y hy; simp at hy⟩
    · rw [Bool.not_eq_true] at hpa
      rw [List.filter_cons, if_neg (by simp [hpa])] at h
      obtain ⟨l₁, l₂, heq, hall⟩ := ih x h
      refine ⟨a :: l₁, l₂, by rw [heq]; rfl, ?_⟩
      intro y hy
      rcases List.mem_cons.1 hy with h2 | h2
      · rw [h2]; exact hpa
      · exact hall y h2

/-- Stability of the sort+dedup conversion: every retained element is
the earliest occurrence of its equivalence class in the input. -/
theorem earliest_rep_ofAssocListMut (hc : LawfulCmp cmp) (l : List α) :
    ∀ x ∈ ofAssocListMut cmp l, ∃ l₁ l₂, l = l₁ ++ x :: l₂ ∧
      ∀ y ∈ l₁, cmp y x ≠ Ordering.eq := by
  intro x hx
  have h1 := head_filter_dedupAdj hc (pairwise_sortByCmp hc l) x hx
  rw [filter_sortByCmp hc x l] at h1
  obtain ⟨l₁, l₂, heq, hall⟩ := head_filter_split _ l x h1
  refine ⟨l₁, l₂, heq, fun y hy => ?_⟩
  have := hall y hy
  rw [ordering_beq_false] at this
  exact this

/-- The sort+dedup conversion preserves membership-up-to-comparison:
binary search on the converted list agrees with the linear scan on the
original list. -/
theorem contains_key_ofAssocListMut (hc : LawfulCmp cmp) (l : List α) (q : α) :
    contains_key cmp (ofAssocListMut cmp l) q =
      AssocListMut.contains_key cmp l q := by
  have hpw := pairwiseLt_ofAssocListMut hc l
  have hiff := binSearch_iff hc (ofAssocListMut cmp l) hpw q
  rw [AssocListMut.contains_key]
  cases hres : (l.any fun x => cmp x q == Ordering.eq) with
  | true =>
    rw [List.any_eq_true] at hres
    obtain ⟨y, hy, hyq⟩ := hres
    rw [ordering_beq_true] at hyq
    show binSearch cmp (ofAssocListMut cmp l) q = true
    rw [hiff]
    have hy2 : y ∈ sortByCmp cmp l := ((perm_sortByCmp l).mem_iff).2 hy
    obtain ⟨x, hxmem, hxy⟩ := exists_rep_dedupAdj hc hy2
    exact ⟨x, hxmem, hc.eq_trans hxy hyq⟩
  | false =>
    show binSearch cmp (ofAssocListMut cmp l) q = false
    cases hbs : binSearch cmp (ofAssocListMut cmp l) q with
    | false => rfl
    | true =>
      rw [hiff] at hbs
      obtain ⟨x, hx, hxq⟩ := hbs
      have hxl : x ∈ l := ((perm_sortByCmp l).mem_iff).1 (mem_dedupAdj hx)
      have hany : (l.any fun x => cmp x q == Ordering.eq) = true :=
        List.any_eq_true.2 ⟨x, hxl, by simp [hxq]⟩
      rw [hres] at hany
      exact absurd hany (by decide)

end SortedAssocList

namespace AssocListMut

variable {cmp : α → α → Ordering}

theorem removeFirstMatch_of_forall_not (p : α → Bool) :
    ∀ (l : List α), (∀ x ∈ l, p x = false) → removeFirstMatch p l = l := by
  intro l
  induction l with
  | nil => intro _; rfl
  | cons a t ih =>
    intro h
    rw [removeFirstMatch, if_neg (by simp [h a (List.mem_cons_self a t)])]
    rw [ih (fun x hx => h x (List.mem_cons_of_mem a hx))]

theorem removeFirstMatch_split (p : α → Bool) :
    ∀ (l : List α), (∃ x ∈ l, p x = true) →
      ∃ l₁ x l₂, l = l₁ ++ x :: l₂ ∧ p x = true ∧ (∀ y ∈ l₁, p y = false) ∧
        removeFirstMatch p l = l₁ ++ l₂ := by
  intro l
  induction l with
  | nil => intro h; simp at h
  | cons a t ih =>
    intro h
    by_cases hpa : p a = true
    · exact ⟨[], a, t, rfl, hpa, by intro y hy; simp at hy,
        by rw [removeFirstMatch, if_pos hpa]; rfl⟩
    · rw [Bool.not_eq_true] at hpa
      have hex : ∃ x ∈ t, p x = true := by
        obtain ⟨x, hx, hpx⟩ := h
        rcases List.mem_cons.1 hx with h2 | h2
        · rw [h2] at hpx; rw [hpx] at hpa; exact absurd hpa (by decide)
        · exact ⟨x, h2, hpx⟩
      obtain ⟨l₁, x, l₂, heq, hpx, hall, hrm⟩ := ih hex
      refine ⟨a :: l₁, x, l₂, by rw [heq]; rfl, hpx, ?_, ?_⟩
      · intro y hy
        rcases List.mem_cons.1 hy with h2 | h2
        · rw [h2]; exact hpa
        · exact hall y h2
      · rw [removeFirstMatch, if_neg (by simp [hpa]), hrm]; rfl

end AssocListMut

/-- Building by repeated insertion appends the inserted values in
order. -/
theorem foldl_insert (vs : List α) : ∀ (acc : List α),
    List.foldl MultiSetMut.insert acc vs = acc ++ vs := by
  induction vs with
  | nil => intro acc; simp
  | cons v t ih =>
    intro acc
    rw [List.foldl_cons, ih]
    simp [MultiSetMut.insert, AssocListMut.insert]

theorem buildMultiSetMut_eq (vs : List α) : buildMultiSetMut vs = vs := by
  rw [buildMultiSetMut, foldl_insert]
  rfl

namespace AssocListMut

variable {cmp : α → α → Ordering}

theorem contains_key_iff (cmp : α → α → Ordering) (l : List α) (q : α) :
    contains_key cmp l q = true ↔ ∃ x ∈ l, cmp x q = Ordering.eq := by
  rw [contains_key, List.any_eq_true]
  simp only [ordering_beq_true]

theorem contains_key_eq_false (cmp : α → α → Ordering) (l : List α) (q : α)
    (h : ∀ x ∈ l, cmp x q ≠ Ordering.eq) : contains_key cmp l q = false := by
  cases hck : contains_key cmp l q with
  | false => rfl
  | true =>
    obtain ⟨x, hx, hxq⟩ := (contains_key_iff cmp l q).1 hck
    exact absurd hxq (h x hx)

theorem remove_snd (cmp : α → α → Ordering) (l : List α) (q : α) :
    (remove cmp l q).2 = contains_key cmp l q := by
  rw [remove]
  split
  · rename_i h; exact h.symm
  · rename_i h; rw [Bool.not_eq_true] at h; exact h.symm

theorem remove_found_iff (cmp : α → α → Ordering) (l : List α) (q : α) :
    (remove cmp l q).2 = true ↔ ∃ x ∈ l, cmp x q = Ordering.eq := by
  rw [remove_snd]
  exact contains_key_iff cmp l q

theorem remove_split (cmp : α → α → Ordering) (l : List α) (q : α)
    (hfound : (remove cmp l q).2 = true) :
    ∃ l₁ x l₂, l = l₁ ++ x :: l₂ ∧ cmp x q = Ordering.eq ∧
      (∀ y ∈ l₂, cmp y q ≠ Ordering.eq) ∧ (remove cmp l q).1 = l₁ ++ l₂ := by
  have hck : contains_key cmp l q = true := by
    rw [← remove_snd cmp l q]; exact hfound
  have hex : ∃ x ∈ l.reverse, (fun x => cmp x q == Ordering.eq) x = true := by
    obtain ⟨x, hx, hxq⟩ := (contains_key_iff cmp l q).1 hck
    exact ⟨x, List.mem_reverse.2 hx, by simp [hxq]⟩
  obtain ⟨l₁, x, l₂, hsplit, hpx, hall, hrm⟩ :=
    removeFirstMatch_split _ l.reverse hex
  refine ⟨l₂.reverse, x, l₁.reverse, ?_, ?_, ?_, ?_⟩
  · have h2 := congrArg List.reverse hsplit
    rw [List.reverse_reverse] at h2
    rw [h2, List.reverse_append, List.reverse_cons, List.append_assoc,
      List.singleton_append]
  · rw [ordering_beq_true] at hpx; exact hpx
  · intro y hy
    have hfalse := hall y (List.mem_reverse.1 hy)
    rw [ordering_beq_false] at hfalse
    exact hfalse
  · rw [remove, if_pos hck]
    show (removeFirstMatch (fun x => cmp x q == Ordering.eq) l.reverse).reverse =
      l₂.reverse ++ l₁.reverse
    rw [hrm, List.reverse_append]

theorem remove_absent (cmp : α → α → Ordering) (l : List α) (q : α)
    (h : ∀ x ∈ l, cmp x q ≠ Ordering.eq) : remove cmp l q = (l, false) := by
  rw [remove, if_neg (by simp [contains_key_eq_false cmp l q h])]

theorem remove_all_absent (cmp : α → α → Ordering) (l : List α) (q : α)
    (h : ∀ x ∈ l, cmp x q ≠ Ordering.eq) : remove_all cmp l q = (l, false) := by
  rw [remove_all, contains_key_eq_false cmp l q h]
  rw [List.filter_eq_self.2 (fun x hx => by simp [h x hx])]

end AssocListMut

/-- A list is empty exactly when its length is zero. -/
theorem list_isEmpty_iff_length (l : List α) :
    l.isEmpty = true ↔ l.length = 0 := by
  cases l <;> simp

/-- The `compare` function on `Nat` is a lawful comparison. -/
theorem lawfulCmp_natCompare : LawfulCmp (fun a b : Nat => compare a b) := by
  constructor
  · intro a b
    rcases Nat.lt_trichotomy a b with h | h | h
    · rw [Nat.compare_eq_lt.2 h, Nat.compare_eq_gt.2 h]; rfl
    · rw [Nat.compare_eq_eq.2 h, Nat.compare_eq_eq.2 h.symm]; rfl
    · rw [Nat.compare_eq_gt.2 h, Nat.compare_eq_lt.2 h]; rfl
  · intro a b c hab hbc hac
    have h1 : a ≤ b := by
      rcases Nat.lt_or_ge b a with h | h
      · exact absurd (Nat.compare_eq_gt.2 h) hab
      · exact h
    have h2 : b ≤ c := by
      rcases Nat.lt_or_ge c b with h | h
      · exact absurd (Nat.compare_eq_gt.2 h) hbc
      · exact h
    have h3 : c < a := Nat.compare_eq_gt.1 hac
    omega

/-- Lawfulness transfers along a key function: comparing images under a
lawful comparison is lawful. -/
theorem LawfulCmp.comap {β : Type u} {cmp : α → α → Ordering}
    (hc : LawfulCmp cmp) (f : β → α) :
    LawfulCmp (fun a b : β => cmp (f a) (f b)) := by
  constructor
  · intro a b; exact hc.symm (f a) (f b)
  · intro a b c hab hbc; exact hc.le_trans (f a) (f b) (f c) hab hbc


/-! The claim theorems. -/

/-- C1: For every sequence of n insert calls on a `MultiSetMut` (starting
from `new_in`), `len()` returns n and `iter()` yields exactly the
inserted values, in insertion order. -/
theorem multiSetMut_insert_sequence (vs : List α) :
    MultiSetMut.len (buildMultiSetMut vs) = vs.length ∧
    MultiSetMut.iter (buildMultiSetMut vs) = vs := by
  rw [buildMultiSetMut_eq]
  exact ⟨rfl, rfl⟩

/-- C2: Converting a `MultiSetMut` into a `SortedSet` sorts its contents
into strictly ascending element order and removes duplicates, so that no
two adjacent elements of the result compare equal; in particular, a
builder holding [3,1,1,2] converts to a `SortedSet` with
`iter() == [1,2,3]` and `len() == 3`. -/
theorem sortedSet_sorted_dedup (cmp : α → α → Ordering) (hc : LawfulCmp cmp)
    (s : List α) :
    List.Chain' (fun a b => cmp a b = Ordering.lt)
      (SortedSet.iter (SortedSet.ofMultiSetMut cmp s)) ∧
    List.Chain' (fun a b => cmp a b ≠ Ordering.eq)
      (SortedSet.iter (SortedSet.ofMultiSetMut cmp s)) ∧
    SortedSet.iter (SortedSet.ofMultiSetMut compare
      (buildMultiSetMut ([3, 1, 1, 2] : List Nat))) = [1, 2, 3] ∧
    SortedSet.len (SortedSet.ofMultiSetMut compare
      (buildMultiSetMut ([3, 1, 1, 2] : List Nat))) = 3 := by
  have hch := SortedAssocList.chainLt_dedupAdj hc
    (SortedAssocList.pairwise_sortByCmp hc s)
  refine ⟨hch, ?_, by decide, by decide⟩
  exact List.Chain'.imp (fun a b hab => by rw [hab]; decide) hch

/-- Witness for C2 at `cmp = compare` on `Nat` and builder [3,1,2]. -/
theorem sortedSet_sorted_dedup_witness :
    List.Chain' (fun a b => compare a b = Ordering.lt)
      (SortedSet.iter (SortedSet.ofMultiSetMut compare ([3, 1, 2] : List Nat))) ∧
    List.Chain' (fun a b => compare a b ≠ Ordering.eq)
      (SortedSet.iter (SortedSet.ofMultiSetMut compare ([3, 1, 2] : List Nat))) ∧
    SortedSet.iter (SortedSet.ofMultiSetMut compare
      (buildMultiSetMut ([3, 1, 1, 2] : List Nat))) = [1, 2, 3] ∧
    SortedSet.len (SortedSet.ofMultiSetMut compare
      (buildMultiSetMut ([3, 1, 1, 2] : List Nat))) = 3 :=
  sortedSet_sorted_dedup compare lawfulCmp_natCompare [3, 1, 2]

/-- C3: Freezing a `MultiSetMut` into a `MultiSet` preserves exactly the
element order and duplicate multiplicities present at the moment of
freezing, performing no reordering and no filtering: the `MultiSet`'s
`iter()`, `len()`, and `contains()` observations equal those of the
builder just before freezing; in particular, a builder holding [3,1,2]
freezes to a `MultiSet` with `iter() == [3,1,2]`. -/
theorem multiSet_freeze_preserves (cmp : α → α → Ordering) (s : List α)
    (q : α) :
    MultiSet.iter (MultiSet.ofMultiSetMut s) = MultiSetMut.iter s ∧
    MultiSet.len (MultiSet.ofMultiSetMut s) = MultiSetMut.len s ∧
    MultiSet.contains cmp (MultiSet.ofMultiSetMut s) q =
      MultiSetMut.contains cmp s q ∧
    MultiSet.iter (MultiSet.ofMultiSetMut
      (buildMultiSetMut ([3, 1, 2] : List Nat))) = [3, 1, 2] :=
  ⟨rfl, rfl, rfl, by decide⟩

/-- C4: `MultiSetMut::remove(query)` removes exactly one element — the
most recently inserted element that compares equal to query — and
returns true iff such a match was found and removed; after inserting "a"
twice, one `remove("a")` leaves `contains("a") == true` and
`len() == 1`, and a second `remove("a")` leaves `contains("a") == false`
and `len() == 0`. -/
theorem multiSetMut_remove_most_recent (cmp : α → α → Ordering)
    (s : List α) (q : α) :
    ((MultiSetMut.remove cmp s q).2 = true ↔ ∃ x ∈ s, cmp x q = Ordering.eq) ∧
    ((MultiSetMut.remove cmp s q).2 = true →
      ∃ s₁ x s₂, s = s₁ ++ x :: s₂ ∧ cmp x q = Ordering.eq ∧
        (∀ y ∈ s₂, cmp y q ≠ Ordering.eq) ∧
        (MultiSetMut.remove cmp s q).1 = s₁ ++ s₂) ∧
    MultiSetMut.contains compare
      (MultiSetMut.remove compare (buildMultiSetMut ["a", "a"]) "a").1 "a"
      = true ∧
    MultiSetMut.len
      (MultiSetMut.remove compare (buildMultiSetMut ["a", "a"]) "a").1 = 1 ∧
    MultiSetMut.contains compare
      (MultiSetMut.remove compare
        (MultiSetMut.remove compare (buildMultiSetMut ["a", "a"]) "a").1
        "a").1 "a" = false ∧
    MultiSetMut.len
      (MultiSetMut.remove compare
        (MultiSetMut.remove compare (buildMultiSetMut ["a", "a"]) "a").1
        "a").1 = 0 ∧
    (MultiSetMut.remove compare (buildMultiSetMut ["a", "a"]) "a").2 = true ∧
    (MultiSetMut.remove compare
      (MultiSetMut.remove compare (buildMultiSetMut ["a", "a"]) "a").1
      "a").2 = true :=
  ⟨AssocListMut.remove_found_iff cmp s q,
    fun hfound => AssocListMut.remove_split cmp s q hfound,
    by decide, by decide, by decide, by decide, by decide, by decide⟩

/-- Witness for C4: the split produced by removing "a" from the builder
["a","a"]. -/
theorem multiSetMut_remove_most_recent_witness :
    ∃ s₁ x s₂, (["a", "a"] : List String) = s₁ ++ x :: s₂ ∧
      compare x "a" = Ordering.eq ∧
      (∀ y ∈ s₂, compare y "a" ≠ Ordering.eq) ∧
      (MultiSetMut.remove compare ["a", "a"] "a").1 = s₁ ++ s₂ :=
  (multiSetMut_remove_most_recent compare ["a", "a"] "a").2.1 (by decide)

/-- C5: `MultiSetMut::remove_all(query)` removes every element comparing
equal to query and returns true iff at least one element was removed;
for a builder holding {"a","a","b"}, `remove_all("a")` returns true and
leaves `iter() == ["b"]` and `len() == 1`, and a subsequent
`remove_all("a")` returns false. -/
theorem multiSetMut_remove_all_spec [DecidableEq α]
    (cmp : α → α → Ordering) (s : List α) (q : α) :
    ((MultiSetMut.remove_all cmp s q).2 = true ↔
      ∃ x ∈ s, cmp x q = Ordering.eq) ∧
    List.Sublist (MultiSetMut.remove_all cmp s q).1 s ∧
    (∀ x ∈ (MultiSetMut.remove_all cmp s q).1, cmp x q ≠ Ordering.eq) ∧
    (∀ x ∈ s, cmp x q ≠ Ordering.eq →
      List.count x (MultiSetMut.remove_all cmp s q).1 = List.count x s) ∧
    (MultiSetMut.remove_all compare (buildMultiSetMut ["a", "a", "b"])
      "a").2 = true ∧
    MultiSetMut.iter (MultiSetMut.remove_all compare
      (buildMultiSetMut ["a", "a", "b"]) "a").1 = ["b"] ∧
    MultiSetMut.len (MultiSetMut.remove_all compare
      (buildMultiSetMut ["a", "a", "b"]) "a").1 = 1 ∧
    (MultiSetMut.remove_all compare
      (MultiSetMut.remove_all compare (buildMultiSetMut ["a", "a", "b"])
        "a").1 "a").2 = false := by
  refine ⟨AssocListMut.contains_key_iff cmp s q, List.filter_sublist s, ?_, ?_,
    by decide, by decide, by decide, by decide⟩
  · intro x hx
    have hx2 : x ∈ s.filter (fun x => !(cmp x q == Ordering.eq)) := hx
    rw [List.mem_filter] at hx2
    have h2 := hx2.2
    simp only [Bool.not_eq_true', ordering_beq_false] at h2
    exact h2
  · intro x _ hxq
    exact List.count_filter (by simp [hxq])

/-- Witness for C5: removing all 1s from the builder [1,1,2] preserves
the count of 2. -/
theorem multiSetMut_remove_all_spec_witness :
    List.count 2 (MultiSetMut.remove_all compare ([1, 1, 2] : List Nat) 1).1 =
      List.count 2 [1, 1, 2] :=
  (multiSetMut_remove_all_spec compare [1, 1, 2] 1).2.2.2.1 2 (by decide)
    (by decide)

/-- C6: For every `SortedSet` built by conversion from a `MultiSetMut`,
under the hypothesis that the query's comparison is consistent with the
element order used at construction, `contains(query)` returns true iff
some stored element compares equal to query; in particular, for a
`SortedSet` built from [1,2,3,5,8], `contains(4) == false` and
`contains(5) == true`. -/
theorem sortedSet_contains_binary_search (cmp : α → α → Ordering)
    (hc : LawfulCmp cmp) (s : List α) (q : α) :
    (SortedSet.contains cmp (SortedSet.ofMultiSetMut cmp s) q = true ↔
      ∃ x ∈ SortedSet.iter (SortedSet.ofMultiSetMut cmp s),
        cmp x q = Ordering.eq) ∧
    SortedSet.contains compare (SortedSet.ofMultiSetMut compare
      (buildMultiSetMut ([1, 2, 3, 5, 8] : List Nat))) 4 = false ∧
    SortedSet.contains compare (SortedSet.ofMultiSetMut compare
      (buildMultiSetMut ([1, 2, 3, 5, 8] : List Nat))) 5 = true := by
  refine ⟨?_, by decide, by decide⟩
  exact SortedAssocList.binSearch_iff hc _
    (SortedAssocList.pairwiseLt_ofAssocListMut hc s) q

/-- Witness for C6 at `cmp = compare` on `Nat`, builder [5,1], query 3. -/
theorem sortedSet_contains_binary_search_witness :
    (SortedSet.contains compare
        (SortedSet.ofMultiSetMut compare ([5, 1] : List Nat)) 3 = true ↔
      ∃ x ∈ SortedSet.iter (SortedSet.ofMultiSetMut compare
        ([5, 1] : List Nat)), compare x 3 = Ordering.eq) ∧
    SortedSet.contains compare (SortedSet.ofMultiSetMut compare
      (buildMultiSetMut ([1, 2, 3, 5, 8] : List Nat))) 4 = false ∧
    SortedSet.contains compare (SortedSet.ofMultiSetMut compare
      (buildMultiSetMut ([1, 2, 3, 5, 8] : List Nat))) 5 = true :=
  sortedSet_contains_binary_search compare lawfulCmp_natCompare [5, 1] 3

/-- C7: For each of the three types `MultiSetMut`, `MultiSet`, and
`SortedSet`, at every state, `is_empty()` returns true iff
`len() == 0`. -/
theorem is_empty_iff_len_zero (s t u : List α) :
    (MultiSetMut.is_empty s = true ↔ MultiSetMut.len s = 0) ∧
    (MultiSet.is_empty t = true ↔ MultiSet.len t = 0) ∧
    (SortedSet.is_empty u = true ↔ SortedSet.len u = 0) :=
  ⟨list_isEmpty_iff_length s, list_isEmpty_iff_length t,
    list_isEmpty_iff_length u⟩

/-- C8: Calling `remove` or `remove_all` on a `MultiSetMut` with a value
that compares equal to no stored element returns false and leaves the
set unchanged; the absent value is reported as a normal boolean result,
never as an error. -/
theorem remove_absent_noop (cmp : α → α → Ordering) (s : List α) (q : α)
    (h : ∀ x ∈ s, cmp x q ≠ Ordering.eq) :
    MultiSetMut.remove cmp s q = (s, false) ∧
    MultiSetMut.remove_all cmp s q = (s, false) :=
  ⟨AssocListMut.remove_absent cmp s q h,
    AssocListMut.remove_all_absent cmp s q h⟩

/-- Witness for C8: removing the absent value 5 from [1,2]. -/
theorem remove_absent_noop_witness :
    MultiSetMut.remove compare ([1, 2] : List Nat) 5 = ([1, 2], false) ∧
    MultiSetMut.remove_all compare ([1, 2] : List Nat) 5 = ([1, 2], false) :=
  remove_absent_noop compare [1, 2] 5 (by decide)

/-- C9: The `MultiSetMut`-to-`SortedSet` conversion deduplicates via a
stable sort: among elements that compare equal under the order, the
earliest-inserted occurrence is the representative retained in the
resulting `SortedSet`. -/
theorem sortedSet_dedup_keeps_earliest (cmp : α → α → Ordering)
    (hc : LawfulCmp cmp) (s : List α) :
    ∀ x ∈ SortedSet.iter (SortedSet.ofMultiSetMut cmp s),
      ∃ s₁ s₂, s = s₁ ++ x :: s₂ ∧ ∀ y ∈ s₁, cmp y x ≠ Ordering.eq :=
  fun x hx => SortedAssocList.earliest_rep_ofAssocListMut hc s x hx

/-- Witness for C9: the builder [(1,10),(1,20)] under first-component
comparison retains (1,10), its earliest-inserted representative. -/
theorem sortedSet_dedup_keeps_earliest_witness :
    ∃ s₁ s₂, ([(1, 10), (1, 20)] : List (Nat × Nat)) =
        s₁ ++ (1, 10) :: s₂ ∧
      ∀ y ∈ s₁, compare y.1 1 ≠ Ordering.eq :=
  sortedSet_dedup_keeps_earliest (fun a b => compare a.1 b.1)
    (lawfulCmp_natCompare.comap Prod.fst) [(1, 10), (1, 20)] (1, 10)
    (by decide)

/-- C10: Conversion from `MultiSetMut` to `SortedSet` preserves
membership: for every builder s and every query value q,
`SortedSet::from(s).contains(q)` returns the same boolean as
`s.contains(q)` did on the builder. -/
theorem sortedSet_contains_agrees (cmp : α → α → Ordering)
    (hc : LawfulCmp cmp) (s : List α) (q : α) :
    SortedSet.contains cmp (SortedSet.ofMultiSetMut cmp s) q =
      MultiSetMut.contains cmp s q :=
  SortedAssocList.contains_key_ofAssocListMut hc s q

/-- Witness for C10 at `cmp = compare` on `Nat`, builder [3,1,2],
query 2. -/
theorem sortedSet_contains_agrees_witness :
    SortedSet.contains compare
        (SortedSet.ofMultiSetMut compare ([3, 1, 2] : List Nat)) 2 =
      MultiSetMut.contains compare [3, 1, 2] 2 :=
  sortedSet_contains_agrees compare lawfulCmp_natCompare [3, 1, 2] 2

end ArenaMultiset
